import Mathlib

/-!
Verification development for the cycle-firebase driver (src/firebase.js).

Paths are modelled as `List Char`.  The driver's `trimPath` is
`location.replace(/(^\/)|(\/$)/, '').replace(/\/\/+/, '/')`: both JavaScript
`replace` calls lack the `g` flag, so each replaces only the *first* match.
The first regex removes a single leading slash when present, otherwise a
single trailing slash; the second collapses only the first maximal run of
two-or-more slashes to a single slash.
-/

/-- Longest slash-free prefix of a character list (the first path segment). -/
def takeSeg : List Char → List Char
  | [] => []
  | c :: cs => if c = '/' then [] else c :: takeSeg cs

/-- Drop characters up to and including the first slash. -/
def dropSeg : List Char → List Char
  | [] => []
  | c :: cs => if c = '/' then cs else dropSeg cs

/-- The nonempty slash-separated segments of a path, in order. -/
def segs : List Char → List (List Char)
  | [] => []
  | c :: cs =>
    if c = '/' then segs cs
    else (c :: takeSeg cs) :: segs (dropSeg cs)
termination_by l => l.length
decreasing_by
  · simp
  · refine Nat.lt_succ_of_le ?_
    induction cs with
    | nil => simp [dropSeg]
    | cons d ds ih =>
      simp only [dropSeg]
      split
      · simp
      · exact Nat.le_trans ih (Nat.le_succ _)

/-- Drop a leading run of slashes. -/
def dropRun : List Char → List Char
  | [] => []
  | c :: cs => if c = '/' then dropRun cs else c :: cs

/-- `s.replace(/\/\/+/, '/')` without the `g` flag: collapse only the first
maximal run of two-or-more slashes to a single slash. -/
def collapseFirst : List Char → List Char
  | [] => []
  | [c] => [c]
  | c :: c2 :: cs =>
    if c = '/' ∧ c2 = '/' then '/' :: dropRun cs
    else c :: collapseFirst (c2 :: cs)

/-- `s.replace(/(^\/)|(\/$)/, '')` without the `g` flag: remove one leading
slash when present, otherwise one trailing slash when present. -/
def replaceEdge (l : List Char) : List Char :=
  match l with
  | [] => []
  | c :: cs =>
    if c = '/' then cs
    else if (c :: cs).getLast? = some '/' then (c :: cs).dropLast
    else c :: cs

/-- `trimPath` from src/firebase.js line 47:
`location.replace(/(^\/)|(\/$)/, '').replace(/\/\/+/, '/')`. -/
def trimPath (l : List Char) : List Char := collapseFirst (replaceEdge l)

/-- Full normalization of a path: its nonempty segments joined by single
slashes, with no leading or trailing slash. -/
def normalizePath (l : List Char) : List Char := List.intercalate ['/'] (segs l)

/-- Path composition performed by the accessor factory:
`trimPath(`${path}/${childPath}`)` (src/firebase.js lines 132 and 153). -/
def childOf (path sub : List Char) : List Char := trimPath (path ++ '/' :: sub)

/-!
JavaScript values.  Scalars, `null`, `undefined`, `NaN` and string-keyed
objects are enough for the driver: the virtual-namespace walk only uses
truthiness and property access.  Property access on a non-object is modelled
as `undefined` (host-object properties of primitives are outside the model).
-/

/-- A JavaScript value. -/
inductive JSVal : Type
  | vnull : JSVal
  | vundefined : JSVal
  | vnan : JSVal
  | vbool (b : Bool) : JSVal
  | vnum (n : Int) : JSVal
  | vstr (s : List Char) : JSVal
  | vobj (fields : List (List Char × JSVal)) : JSVal

/-- JavaScript truthiness. -/
def truthy : JSVal → Bool
  | .vnull => false
  | .vundefined => false
  | .vnan => false
  | .vbool b => b
  | .vnum n => n != 0
  | .vstr s => s != []
  | .vobj _ => true

/-- `(o || {})`: a falsy value is replaced by an empty object. -/
def orEmptyObj (o : JSVal) : JSVal := if truthy o then o else .vobj []

/-- `o[k]`: property access; missing keys and non-objects give `undefined`. -/
def getField (o : JSVal) (k : List Char) : JSVal :=
  match o with
  | .vobj fields =>
    match fields.lookup k with
    | some v => v
    | none => .vundefined
  | _ => .vundefined

/-- `parts.reduce((o, k) => (o || {})[k], object)` (src/firebase.js line 143). -/
def walk (parts : List (List Char)) (object : JSVal) : JSVal :=
  parts.foldl (fun o k => getField (orEmptyObj o) k) object

/-- One emission of the derived virtual-namespace stream:
`parts.reduce((o, k) => (o || {})[k], object) || null` (lines 142-144). -/
def resolveEmission (parts : List (List Char)) (object : JSVal) : JSVal :=
  if truthy (walk parts object) then walk parts object else .vnull

/-- `location$.map(object => ...)`: the derived stream over a reserved
namespace, modelled on a finite list of emissions of the backing stream. -/
def specialStream (parts : List (List Char)) (emissions : List JSVal) : List JSVal :=
  emissions.map (resolveEmission parts)

/-!
The change dispatcher (`timeDriver`'s subscribe callback, lines 67-90).
Value, store-method and error types are abstract parameters; the external
collaborators `handleAuthentication` (authDispatch) and the behaviour of the
invoked store method are passed in as functions.  An apply step is modelled
as the list of side effects it performs plus an optional synchronously
thrown error.
-/

/-- The reserved characters `$user` (compared against `location.slice(0, 5)`). -/
def userKey : List Char := ['$', 'u', 's', 'e', 'r']

/-- The reserved key `$lastError`. -/
def lastErrorKey : List Char := ['$', 'l', 'a', 's', 't', 'E', 'r', 'r', 'o', 'r']

/-- A change produced by the diff collaborator: `{location, value}`. -/
structure ChangeOp (α : Type) : Type where
  location : List Char
  value : α
deriving DecidableEq

/-- Result of invoking a store method: either no thenable is returned, or a
promise that resolves, or a promise that rejects with an error. -/
inductive InvokeResult (ε : Type) : Type
  | plain : InvokeResult ε
  | promiseOk : InvokeResult ε
  | promiseErr (e : ε) : InvokeResult ε
deriving DecidableEq

/-- The only synchronous error the dispatcher itself throws. -/
inductive DriverError : Type
  | protocolViolation : DriverError
deriving DecidableEq

/-- An observable side effect of the apply step. -/
inductive Effect (α μ ε : Type) : Type
  | storeSet (location : List Char) (value : α) : Effect α μ ε
  | invokeOnBase (method : μ) (args : List α) : Effect α μ ε
  | errorPush (e : ε) : Effect α μ ε
deriving DecidableEq

/-- Apply one ChangeOp (the body of `changes.forEach`, lines 68-89):
if `location.slice(0, 5) === '$user'` then require `location === '$user'`
(else throw), dispatch the value through `handleAuthentication`, invoke the
returned method on the base ref, and route a rejected promise to `errors$`;
otherwise `baseRef.child(location).set(value)`. -/
def applyChange {α μ ε : Type} (handleAuthentication : α → μ × List α)
    (invoke : μ → List α → InvokeResult ε) (op : ChangeOp α) :
    List (Effect α μ ε) × Option DriverError :=
  if op.location.take 5 = userKey then
    if op.location ≠ userKey then ([], some DriverError.protocolViolation)
    else
      let ma := handleAuthentication op.value
      match invoke ma.1 ma.2 with
      | .promiseErr e => ([Effect.invokeOnBase ma.1 ma.2, Effect.errorPush e], none)
      | _ => ([Effect.invokeOnBase ma.1 ma.2], none)
  else ([Effect.storeSet op.location op.value], none)

/-- Apply a list of ChangeOps in order (`changes.forEach`): effects
accumulate, and a thrown error aborts the remainder of the list. -/
def applyChanges {α μ ε : Type} (handleAuthentication : α → μ × List α)
    (invoke : μ → List α → InvokeResult ε) :
    List (ChangeOp α) → List (Effect α μ ε) × Option DriverError
  | [] => ([], none)
  | op :: rest =>
    match applyChange handleAuthentication invoke op with
    | (effs, some e) => (effs, some e)
    | (effs, none) =>
      match applyChanges handleAuthentication invoke rest with
      | (effs2, err2) => (effs ++ effs2, err2)

/-- Sequential composition of two effect traces: the second runs only when
the first did not throw. -/
def seqTrace {α μ ε : Type} (a b : List (Effect α μ ε) × Option DriverError) :
    List (Effect α μ ε) × Option DriverError :=
  match a.2 with
  | some e => (a.1, some e)
  | none => (a.1 ++ b.1, b.2)

/-- Process the per-pair change lists emitted by the mapped stream, one
subscriber callback per emission, stopping when a callback throws. -/
def applyChangeLists {α μ ε : Type} (handleAuthentication : α → μ × List α)
    (invoke : μ → List α → InvokeResult ε) :
    List (List (ChangeOp α)) → List (Effect α μ ε) × Option DriverError
  | [] => ([], none)
  | cl :: rest =>
    match applyChanges handleAuthentication invoke cl with
    | (effs, some e) => (effs, some e)
    | (effs, none) =>
      match applyChangeLists handleAuthentication invoke rest with
      | (effs2, err2) => (effs ++ effs2, err2)

/-- The `{}` passed to `.startWith({})`. -/
def emptyTree : JSVal := JSVal.vobj []

/-- The dispatcher pipeline (lines 60-91):
`source$.startWith({}).pairwise().map(([p, n]) => getChanges(p, n))
.subscribe(changes => ...)`, on a finite prefix of the snapshot stream.
`getChanges` is the external diff collaborator. -/
def dispatcherTrace {α μ ε : Type} (getChanges : JSVal → JSVal → List (ChangeOp α))
    (handleAuthentication : α → μ × List α) (invoke : μ → List α → InvokeResult ε)
    (source : List JSVal) : List (Effect α μ ε) × Option DriverError :=
  let withStart := emptyTree :: source
  let pairs := withStart.zip withStart.tail
  let changeLists := pairs.map fun p => getChanges p.1 p.2
  applyChangeLists handleAuthentication invoke changeLists

/-!
The path accessor's `get` (lines 131-146).  It computes
`location = trimPath(`${path}/${childPath}`)`; a location not starting with
`$` reads the store, otherwise the location is split on `/` into
`[dir, ...parts]`, `dir` is looked up among the special-case listeners
(`$user -> auth$`, `$lastError -> errors$`, anything else throws), and the
backing stream is mapped through the structural walk.
-/

/-- What `get` resolves to: a store value stream, a derived stream over a
reserved namespace, or a synchronous unknown-reserved-path error. -/
inductive GetResult : Type
  | storeValue (location : List Char) : GetResult
  | special (dir : List Char) (parts : List (List Char)) : GetResult
  | unknownReserved (dir : List Char) : GetResult
deriving DecidableEq

/-- The location computed at the top of `get`. -/
def resolvedLocation (path childPath : List Char) : List Char :=
  trimPath (path ++ '/' :: childPath)

/-- First element of `location.split('/')` (the split of a nonempty string is
nonempty, so `headI` is the actual head). -/
def resolvedDir (path childPath : List Char) : List Char :=
  (List.splitOn '/' (resolvedLocation path childPath)).headI

/-- The remaining elements of `location.split('/')`. -/
def resolvedParts (path childPath : List Char) : List (List Char) :=
  (List.splitOn '/' (resolvedLocation path childPath)).tail

/-- The dispatch performed by `get` (lines 131-146). -/
def getResolve (path childPath : List Char) : GetResult :=
  if (resolvedLocation path childPath).head? ≠ some '$' then
    GetResult.storeValue (resolvedLocation path childPath)
  else if resolvedDir path childPath = userKey ∨ resolvedDir path childPath = lastErrorKey then
    GetResult.special (resolvedDir path childPath) (resolvedParts path childPath)
  else
    GetResult.unknownReserved (resolvedDir path childPath)

/-- Concrete authDispatch collaborator used to instantiate witnesses. -/
def haNat : Nat → Nat × List Nat := fun v => (0, [v])

/-- Concrete store-method behaviour returning no thenable. -/
def invPlain : Nat → List Nat → InvokeResult Nat := fun _ _ => InvokeResult.plain

/-- Concrete store-method behaviour returning a rejected promise. -/
def invReject : Nat → List Nat → InvokeResult Nat := fun _ _ => InvokeResult.promiseErr 7

/-!  Helper lemmas about the segment decomposition.  -/

theorem dropSeg_length_le (l : List Char) : (dropSeg l).length ≤ l.length := by
  induction l with
  | nil => simp [dropSeg]
  | cons c cs ih =>
    simp only [dropSeg]
    split
    · simp
    · exact Nat.le_trans ih (Nat.le_succ _)

theorem segs_nil : segs [] = [] := by simp [segs]

theorem segs_cons_slash (cs : List Char) : segs ('/' :: cs) = segs cs := by
  rw [segs]
  simp

theorem segs_cons_of_ne (c : Char) (cs : List Char) (h : c ≠ '/') :
    segs (c :: cs) = (c :: takeSeg cs) :: segs (dropSeg cs) := by
  rw [segs]
  simp [h]

theorem takeSeg_append_slash (A Y : List Char) : takeSeg (A ++ '/' :: Y) = takeSeg A := by
  induction A with
  | nil => simp [takeSeg]
  | cons c cs ih =>
    by_cases h : c = '/' <;> simp [takeSeg, h, ih]

theorem dropSeg_eq_nil_of_not_mem (A : List Char) (h : '/' ∉ A) : dropSeg A = [] := by
  induction A with
  | nil => rfl
  | cons c cs ih =>
    simp only [List.mem_cons, not_or] at h
    simp [dropSeg, Ne.symm h.1, ih h.2]

theorem dropSeg_append_slash_of_not_mem (A Y : List Char) (h : '/' ∉ A) :
    dropSeg (A ++ '/' :: Y) = Y := by
  induction A with
  | nil => simp [dropSeg]
  | cons c cs ih =>
    simp only [List.mem_cons, not_or] at h
    simp [dropSeg, Ne.symm h.1, ih h.2]

theorem dropSeg_append_of_mem (A B : List Char) (h : '/' ∈ A) :
    dropSeg (A ++ B) = dropSeg A ++ B := by
  induction A with
  | nil => cases h
  | cons c cs ih =>
    by_cases hc : c = '/'
    · simp [dropSeg, hc]
    · have hm : '/' ∈ cs := by
        rcases List.mem_cons.mp h with h1 | h1
        · exact absurd h1.symm hc
        · exact h1
      simp [dropSeg, hc, ih hm]

theorem segs_append_aux : ∀ (n : Nat) (X Y : List Char), X.length ≤ n →
    segs (X ++ '/' :: Y) = segs X ++ segs Y := by
  intro n
  induction n with
  | zero =>
    intro X Y h
    have hX : X = [] := List.eq_nil_of_length_eq_zero (Nat.le_zero.mp h)
    subst hX
    simp [segs_cons_slash, segs_nil]
  | succ n ih =>
    intro X Y h
    match X with
    | [] => simp [segs_cons_slash, segs_nil]
    | c :: cs =>
      have hcs : cs.length ≤ n := by
        simpa using Nat.le_of_succ_le_succ h
      by_cases hc : c = '/'
      · subst hc
        rw [List.cons_append, segs_cons_slash, segs_cons_slash, ih cs Y hcs]
      · rw [List.cons_append, segs_cons_of_ne c _ hc, segs_cons_of_ne c cs hc]
        rw [takeSeg_append_slash]
        by_cases hm : '/' ∈ cs
        · rw [dropSeg_append_of_mem cs ('/' :: Y) hm,
            ih (dropSeg cs) Y (Nat.le_trans (dropSeg_length_le cs) hcs)]
          simp
        · rw [dropSeg_append_slash_of_not_mem cs Y hm, dropSeg_eq_nil_of_not_mem cs hm]
          simp [segs_nil]

theorem segs_append (X Y : List Char) : segs (X ++ '/' :: Y) = segs X ++ segs Y :=
  segs_append_aux X.length X Y (Nat.le_refl _)

theorem segs_dropRun (l : List Char) : segs (dropRun l) = segs l := by
  induction l with
  | nil => rfl
  | cons c cs ih =>
    by_cases h : c = '/'
    · subst h
      simp [dropRun, segs_cons_slash, ih]
    · simp [dropRun, h]

theorem collapseFirst_cons (x : Char) (xs : List Char) :
    ∃ t, collapseFirst (x :: xs) = x :: t := by
  match xs with
  | [] => exact ⟨[], rfl⟩
  | c2 :: cs =>
    by_cases h : x = '/' ∧ c2 = '/'
    · refine ⟨dropRun cs, ?_⟩
      rw [collapseFirst, if_pos h, h.1]
    · exact ⟨collapseFirst (c2 :: cs), by rw [collapseFirst, if_neg h]⟩

theorem segs_collapseFirst (l : List Char) : segs (collapseFirst l) = segs l := by
  induction l with
  | nil => rfl
  | cons c t ih =>
    match t with
    | [] => rfl
    | c2 :: cs =>
      by_cases hb : c = '/' ∧ c2 = '/'
      · rw [show collapseFirst (c :: c2 :: cs) = '/' :: dropRun cs from by
          rw [collapseFirst, if_pos hb]]
        rw [segs_cons_slash, segs_dropRun, hb.1, hb.2, segs_cons_slash, segs_cons_slash]
      · rw [show collapseFirst (c :: c2 :: cs) = c :: collapseFirst (c2 :: cs) from by
          rw [collapseFirst, if_neg hb]]
        by_cases hc : c = '/'
        · subst hc
          rw [segs_cons_slash, segs_cons_slash]
          exact ih
        · obtain ⟨u, hu⟩ := collapseFirst_cons c2 cs
          rw [hu]
          by_cases hc2 : c2 = '/'
          · subst hc2
            rw [segs_cons_of_ne c _ hc, segs_cons_of_ne c _ hc]
            have hseg : segs u = segs cs := by
              have h2 := ih
              rw [hu, segs_cons_slash, segs_cons_slash] at h2
              exact h2
            simp [takeSeg, dropSeg, hseg]
          · rw [segs_cons_of_ne c _ hc, segs_cons_of_ne c _ hc]
            have h2 := ih
            rw [hu, segs_cons_of_ne c2 _ hc2, segs_cons_of_ne c2 _ hc2] at h2
            injection h2 with ha hb2
            injection ha with hhead h3
            simp [takeSeg, dropSeg, hc2, h3, hb2]

theorem segs_replaceEdge (l : List Char) : segs (replaceEdge l) = segs l := by
  match l with
  | [] => rfl
  | c :: cs =>
    by_cases hc : c = '/'
    · rw [show replaceEdge (c :: cs) = cs from by simp [replaceEdge, hc], hc,
        segs_cons_slash]
    · by_cases hl : (c :: cs).getLast? = some '/'
      · rw [show replaceEdge (c :: cs) = (c :: cs).dropLast from by
          simp [replaceEdge, hc, hl]]
        have hne : (c :: cs) ≠ [] := by simp
        have hlast : (c :: cs).getLast hne = '/' := by
          have := List.getLast?_eq_getLast (c :: cs) hne
          rw [this] at hl
          exact (Option.some.injEq _ _ ▸ hl)
        conv_rhs => rw [← List.dropLast_append_getLast hne, hlast]
        rw [show ((c :: cs).dropLast ++ ['/'] : List Char)
            = (c :: cs).dropLast ++ '/' :: [] from rfl]
        rw [segs_append, segs_nil, List.append_nil]
      · rw [show replaceEdge (c :: cs) = c :: cs from by simp [replaceEdge, hc, hl]]

theorem segs_trimPath (l : List Char) : segs (trimPath l) = segs l := by
  rw [trimPath, segs_collapseFirst, segs_replaceEdge]

/-!  Helper lemmas about the dispatcher and the walk.  -/

theorem walk_undefined (parts : List (List Char)) :
    walk parts JSVal.vundefined = JSVal.vundefined := by
  induction parts with
  | nil => rfl
  | cons k ks ih =>
    rw [walk, List.foldl_cons]
    rw [show getField (orEmptyObj JSVal.vundefined) k = JSVal.vundefined from rfl]
    exact ih

theorem applyChanges_append {α μ ε : Type} (handleAuthentication : α → μ × List α)
    (invoke : μ → List α → InvokeResult ε) (l1 l2 : List (ChangeOp α)) :
    applyChanges handleAuthentication invoke (l1 ++ l2)
      = seqTrace (applyChanges handleAuthentication invoke l1)
          (applyChanges handleAuthentication invoke l2) := by
  induction l1 with
  | nil => simp [applyChanges, seqTrace]
  | cons op t ih =>
    cases hop : applyChange handleAuthentication invoke op with
    | mk effs err =>
      cases err with
      | some e => simp [applyChanges, hop, seqTrace]
      | none =>
        cases ht : applyChanges handleAuthentication invoke t with
        | mk t1 terr =>
          cases terr with
          | some e =>
            simp [applyChanges, hop, ih, ht, seqTrace]
          | none =>
            simp [applyChanges, hop, ih, ht, seqTrace, List.append_assoc]

theorem applyChangeLists_eq_join {α μ ε : Type} (handleAuthentication : α → μ × List α)
    (invoke : μ → List α → InvokeResult ε) (ls : List (List (ChangeOp α))) :
    applyChangeLists handleAuthentication invoke ls
      = applyChanges handleAuthentication invoke ls.flatten := by
  induction ls with
  | nil => simp [applyChangeLists, applyChanges, List.flatten]
  | cons cl rest ih =>
    rw [show (cl :: rest).flatten = cl ++ rest.flatten from rfl]
    rw [applyChanges_append, ← ih]
    cases hc : applyChanges handleAuthentication invoke cl with
    | mk effs err =>
      cases err with
      | some e => simp [applyChangeLists, hc, seqTrace]
      | none => simp [applyChangeLists, hc, seqTrace]

/-!  Claim theorems.  -/

/-- C1: for every ChangeOp whose location begins with the reserved characters
`$user` but is not exactly `$user`, the apply step throws the
ProtocolViolation error synchronously and performs no effect at all — in
particular no store write and no authentication call. -/
theorem applyChange_deep_user_protocolViolation {α μ ε : Type}
    (handleAuthentication : α → μ × List α) (invoke : μ → List α → InvokeResult ε)
    (op : ChangeOp α) (h1 : userKey <+: op.location) (h2 : op.location ≠ userKey) :
    applyChange handleAuthentication invoke op = ([], some DriverError.protocolViolation) := by
  obtain ⟨t, ht⟩ := h1
  have htake : op.location.take 5 = userKey := by
    rw [← ht]
    rfl
  simp [applyChange, htake, h2]

/-- Witness for C1 at the concrete location `$user/name`. -/
theorem applyChange_deep_user_protocolViolation_witness :
    applyChange haNat invPlain ⟨['$', 'u', 's', 'e', 'r', '/', 'n', 'a', 'm', 'e'], 3⟩
      = ([], some DriverError.protocolViolation) :=
  applyChange_deep_user_protocolViolation haNat invPlain _
    ⟨['/', 'n', 'a', 'm', 'e'], rfl⟩ (by decide)

/-- C2: a ChangeOp with location exactly `$user` produces no store write and
reaches the authDispatch collaborator — the method and arguments returned by
`handleAuthentication value` are invoked on the base handle; a ChangeOp whose
location does not begin with `$user` performs exactly one store write,
`set(value)` on the child of the base handle at that location. -/
theorem applyChange_user_auth_and_store_routing {α μ ε : Type}
    (handleAuthentication : α → μ × List α) (invoke : μ → List α → InvokeResult ε)
    (op : ChangeOp α) :
    (op.location = userKey →
      (∀ l v, Effect.storeSet l v ∉ (applyChange handleAuthentication invoke op).1) ∧
      Effect.invokeOnBase (handleAuthentication op.value).1 (handleAuthentication op.value).2
        ∈ (applyChange handleAuthentication invoke op).1) ∧
    (¬ userKey <+: op.location →
      applyChange handleAuthentication invoke op
        = ([Effect.storeSet op.location op.value], none)) := by
  constructor
  · intro he
    have htake : op.location.take 5 = userKey := by
      rw [he]
      decide
    constructor
    · intro l v
      simp only [applyChange, htake, he]
      rcases hinv : invoke (handleAuthentication op.value).1 (handleAuthentication op.value).2
        with _ | _ | e <;> simp [hinv, userKey]
    · simp only [applyChange, htake, he]
      rcases hinv : invoke (handleAuthentication op.value).1 (handleAuthentication op.value).2
        with _ | _ | e <;> simp [hinv, userKey]
  · intro hnp
    have htake : op.location.take 5 ≠ userKey := by
      intro he
      exact hnp ⟨op.location.drop 5, by rw [← he]; exact List.take_append_drop 5 op.location⟩
    simp [applyChange, htake]

/-- Witness for C2: a `$user` write reaches the dispatched method and a plain
write at location `a` becomes exactly one store set. -/
theorem applyChange_user_auth_and_store_routing_witness :
    Effect.invokeOnBase (haNat 5).1 (haNat 5).2 ∈ (applyChange haNat invPlain ⟨userKey, 5⟩).1 ∧
    applyChange haNat invPlain ⟨['a'], 7⟩ = ([Effect.storeSet ['a'] 7], none) :=
  ⟨((applyChange_user_auth_and_store_routing haNat invPlain ⟨userKey, 5⟩).1 rfl).2,
   (applyChange_user_auth_and_store_routing haNat invPlain ⟨['a'], 7⟩).2 (by decide)⟩

/-- C3 counterexample: `trimPath` does not strip all boundary slashes nor
collapse every repeated-slash run; on the claim's own example `"/a//b/"` it
returns `"a/b/"`, not `"a/b"`. -/
theorem trimPath_counterexample :
    trimPath ['/', 'a', '/', '/', 'b', '/'] ≠ ['a', '/', 'b'] := by decide

/-- C3 amended: `trimPath` removes one leading slash when present (otherwise
one trailing slash) and collapses only the first run of repeated slashes —
`"/a//b/"` normalizes to `"a/b/"` — and it always preserves the
slash-separated segment decomposition of the path, so two paths denote the
same sequence of segments iff their trimmed forms do. -/
theorem trimPath_single_replacement :
    (∀ l, segs (trimPath l) = segs l) ∧
    trimPath ['/', 'a', '/', '/', 'b', '/'] = ['a', '/', 'b', '/'] :=
  ⟨segs_trimPath, by decide⟩

/-- C4: for every accessor path `p` and all strings `a` and `b`,
`child(a).child(b)` and `child(a + "/" + b)` are bound to the same normalized
store location. -/
theorem childOf_normalized_assoc (p a b : List Char) :
    normalizePath (childOf (childOf p a) b) = normalizePath (childOf p (a ++ '/' :: b)) := by
  unfold normalizePath childOf
  simp only [segs_trimPath, segs_append, List.append_assoc]

/-- C5: when the resolved location starts with `$` but its first segment is
neither `$user` nor `$lastError`, `get` fails synchronously with the
unknown-reserved-path error instead of returning a stream. -/
theorem getResolve_unknown_reserved (path childPath : List Char)
    (h1 : (resolvedLocation path childPath).head? = some '$')
    (h2 : resolvedDir path childPath ≠ userKey)
    (h3 : resolvedDir path childPath ≠ lastErrorKey) :
    getResolve path childPath = GetResult.unknownReserved (resolvedDir path childPath) := by
  simp [getResolve, h1, h2, h3]

/-- Witness for C5 at the concrete call `get("$nope")` on the root accessor. -/
theorem getResolve_unknown_reserved_witness :
    getResolve [] ['$', 'n', 'o', 'p', 'e']
      = GetResult.unknownReserved (resolvedDir [] ['$', 'n', 'o', 'p', 'e']) :=
  getResolve_unknown_reserved [] ['$', 'n', 'o', 'p', 'e'] (by decide) (by decide) (by decide)

/-- C6: a recognized reserved location resolves to the derived stream over
the namespace's backing stream with the remaining segments as the walk; the
walk is the pure fold `(o, k) => (o || {})[k]` over those segments, and any
missing intermediate (an `undefined` field access, with falsy intermediates
replaced by the empty object) makes the emission resolve to `null` rather
than fail, with no further effects. -/
theorem getResolve_special_and_walk :
    (∀ path childPath, (resolvedLocation path childPath).head? = some '$' →
        (resolvedDir path childPath = userKey ∨ resolvedDir path childPath = lastErrorKey) →
        getResolve path childPath
          = GetResult.special (resolvedDir path childPath) (resolvedParts path childPath)) ∧
    (∀ k parts object, walk (k :: parts) object = walk parts (getField (orEmptyObj object) k)) ∧
    (∀ pre k post object, getField (orEmptyObj (walk pre object)) k = JSVal.vundefined →
        resolveEmission (pre ++ k :: post) object = JSVal.vnull) := by
  refine ⟨?_, ?_, ?_⟩
  · intro path childPath h1 h2
    simp [getResolve, h1, h2]
  · intro k parts object
    rfl
  · intro pre k post object h
    have hw : walk (pre ++ k :: post) object = JSVal.vundefined := by
      rw [walk, List.foldl_append, List.foldl_cons]
      rw [show List.foldl (fun o k => getField (orEmptyObj o) k) object pre
          = walk pre object from rfl]
      rw [h]
      exact walk_undefined post
    simp [resolveEmission, hw, truthy]

/-- Witness for C6: `get("$user/p")` resolves to the `$user` stream with walk
segment `p`, and a deep-missing walk over an emitted `null` yields `null`. -/
theorem getResolve_special_and_walk_witness :
    getResolve [] ['$', 'u', 's', 'e', 'r', '/', 'p']
      = GetResult.special (resolvedDir [] ['$', 'u', 's', 'e', 'r', '/', 'p'])
          (resolvedParts [] ['$', 'u', 's', 'e', 'r', '/', 'p']) ∧
    resolveEmission ([['p']] ++ ['q'] :: []) JSVal.vnull = JSVal.vnull :=
  ⟨getResolve_special_and_walk.1 [] ['$', 'u', 's', 'e', 'r', '/', 'p']
      (by decide) (by decide),
   getResolve_special_and_walk.2.2 [['p']] ['q'] [] JSVal.vnull rfl⟩

/-- C7: when the dispatched authentication operation of a `$user` ChangeOp
yields a rejected promise, the failure is pushed onto the error channel, the
apply step does not throw, and the dispatcher keeps processing the
subsequent changes of the list. -/
theorem applyChange_async_failure_to_errors {α μ ε : Type}
    (handleAuthentication : α → μ × List α) (invoke : μ → List α → InvokeResult ε)
    (op : ChangeOp α) (e : ε) (h1 : op.location = userKey)
    (h2 : invoke (handleAuthentication op.value).1 (handleAuthentication op.value).2
      = InvokeResult.promiseErr e) :
    applyChange handleAuthentication invoke op
      = ([Effect.invokeOnBase (handleAuthentication op.value).1
            (handleAuthentication op.value).2, Effect.errorPush e], none) ∧
    ∀ rest, applyChanges handleAuthentication invoke (op :: rest)
      = ((applyChange handleAuthentication invoke op).1
          ++ (applyChanges handleAuthentication invoke rest).1,
         (applyChanges handleAuthentication invoke rest).2) := by
  have htake : op.location.take 5 = userKey := by
    rw [h1]
    decide
  have hmain : applyChange handleAuthentication invoke op
      = ([Effect.invokeOnBase (handleAuthentication op.value).1
            (handleAuthentication op.value).2, Effect.errorPush e], none) := by
    simp [applyChange, htake, h1, h2, userKey]
  refine ⟨hmain, ?_⟩
  intro rest
  cases hr : applyChanges handleAuthentication invoke rest with
  | mk effs2 err2 => simp [applyChanges, hmain, hr]

/-- Witness for C7: a `$user` write whose store call rejects with error 7
pushes 7 onto the error channel and processing continues to the next change. -/
theorem applyChange_async_failure_to_errors_witness :
    applyChange haNat invReject ⟨userKey, 5⟩
      = ([Effect.invokeOnBase (haNat 5).1 (haNat 5).2, Effect.errorPush 7], none) ∧
    applyChanges haNat invReject (⟨userKey, 5⟩ :: [⟨['b'], 2⟩])
      = ((applyChange haNat invReject ⟨userKey, 5⟩).1
          ++ (applyChanges haNat invReject [⟨['b'], 2⟩]).1,
         (applyChanges haNat invReject [⟨['b'], 2⟩]).2) :=
  ⟨(applyChange_async_failure_to_errors haNat invReject ⟨userKey, 5⟩ 7 rfl rfl).1,
   (applyChange_async_failure_to_errors haNat invReject ⟨userKey, 5⟩ 7 rfl rfl).2 [⟨['b'], 2⟩]⟩

/-- C8: the dispatcher pipeline compares the first snapshot against the empty
tree (`startWith({})` followed by `pairwise()`), obtains each pair's changes
from the diff collaborator, and its total effect trace equals applying the
concatenation of the per-pair change lists in exactly that order — no
reordering and no batching across pairs. -/
theorem dispatcherTrace_eq_join {α μ ε : Type} (getChanges : JSVal → JSVal → List (ChangeOp α))
    (handleAuthentication : α → μ × List α) (invoke : μ → List α → InvokeResult ε)
    (source : List JSVal) :
    dispatcherTrace getChanges handleAuthentication invoke source
      = applyChanges handleAuthentication invoke
          ((((emptyTree :: source).zip source).map fun p => getChanges p.1 p.2).flatten) := by
  rw [dispatcherTrace]
  exact applyChangeLists_eq_join handleAuthentication invoke _

/-- C9: the reserved-prefix test looks only at the first five characters of
the location, not at its first path segment: every ChangeOp whose location
starts with the characters `$user` while its first segment is a different
key is rejected with the ProtocolViolation error instead of being written to
the store. -/
theorem applyChange_five_char_sniff {α μ ε : Type}
    (handleAuthentication : α → μ × List α) (invoke : μ → List α → InvokeResult ε)
    (op : ChangeOp α) (h1 : op.location.take 5 = userKey)
    (h2 : takeSeg op.location ≠ userKey) :
    applyChange handleAuthentication invoke op = ([], some DriverError.protocolViolation) := by
  have hne : op.location ≠ userKey := by
    intro he
    apply h2
    rw [he]
    decide
  simp [applyChange, h1, hne]

/-- Witness for C9 at the concrete location `$username`, whose first segment
is `$username`, not `$user`. -/
theorem applyChange_five_char_sniff_witness :
    applyChange haNat invPlain ⟨['$', 'u', 's', 'e', 'r', 'n', 'a', 'm', 'e'], 1⟩
      = ([], some DriverError.protocolViolation) :=
  applyChange_five_char_sniff haNat invPlain _ (by decide) (by decide)

/-- C10: the final `|| null` coerces every falsy walk result — `0`, `false`,
the empty string, `NaN` (and `null`/`undefined`) are all falsy — to `null`,
while a truthy result is emitted unchanged; the derived stream maps every
emission through this resolution. -/
theorem resolveEmission_falsy_coerced :
    (∀ parts object, truthy (walk parts object) = false →
        resolveEmission parts object = JSVal.vnull) ∧
    (∀ parts object, truthy (walk parts object) = true →
        resolveEmission parts object = walk parts object) ∧
    truthy (JSVal.vnum 0) = false ∧ truthy (JSVal.vbool false) = false ∧
    truthy (JSVal.vstr []) = false ∧ truthy JSVal.vnan = false ∧
    (∀ parts emissions, specialStream parts emissions
        = emissions.map (resolveEmission parts)) := by
  refine ⟨?_, ?_, by decide, rfl, by decide, rfl, fun _ _ => rfl⟩
  · intro parts object h
    simp [resolveEmission, h]
  · intro parts object h
    simp [resolveEmission, h]

/-- Witness for C10: a field that exists and holds `0` is emitted as `null`. -/
theorem resolveEmission_falsy_coerced_witness :
    resolveEmission [['a']] (JSVal.vobj [(['a'], JSVal.vnum 0)]) = JSVal.vnull :=
  resolveEmission_falsy_coerced.1 [['a']] (JSVal.vobj [(['a'], JSVal.vnum 0)]) rfl
